import Mathlib

/-!
Shallow embedding of the bill-splitting core (`src/core.ts`): `splitBill`
and its helpers.  JavaScript numbers are modelled as rationals; the JS
primitive `Math.round` (round half toward positive infinity) is modelled
as `fun x => ⌊x + 1/2⌋`.  JS strings are modelled as Lean strings, with
lexicographic comparison on character codes.
-/

set_option maxRecDepth 8000

/-- Model of the JS primitive Math.round: round half toward positive infinity. -/
def jsRound (x : ℚ) : ℚ := ⌊x + 1/2⌋

/-- Rounding to the nearest tenth, written inline in the source in three
places as Math.round (x * 10) / 10. -/
def roundTenth (x : ℚ) : ℚ := jsRound (x * 10) / 10

/-- Embedding of the BillItem tagged union: the source discriminates with
the boolean field isShared plus an optional person field. -/
inductive BillItem where
  | shared (price : ℚ) (name : String)
  | personal (price : ℚ) (name : String) (person : String)
deriving DecidableEq

/-- Price of an item, shared or personal alike. -/
def BillItem.price : BillItem → ℚ
  | .shared p _ => p
  | .personal p _ _ => p

/-- Embedding of the BillInput record; the optional persons field is the
roster override. -/
structure BillInput where
  date : String
  location : String
  tipPercentage : ℚ
  items : List BillItem
  persons : Option (List String)

/-- Embedding of the PersonItem output record. -/
structure PersonItem where
  name : String
  amount : ℚ
deriving DecidableEq

/-- Embedding of the BillOutput record. -/
structure BillOutput where
  date : String
  location : String
  subTotal : ℚ
  tip : ℚ
  totalAmount : ℚ
  items : List PersonItem

/-- Embedding of calculateSubTotal: items.reduce((total, item) => total + item.price, 0). -/
def calculateSubTotal (items : List BillItem) : ℚ :=
  items.foldl (fun total item => total + item.price) 0

/-- Embedding of calculateTip: Math.round (subTotal * tipPercentage / 100 * 10) / 10. -/
def calculateTip (subTotal : ℚ) (tipPercentage : ℚ) : ℚ :=
  roundTenth (subTotal * tipPercentage / 100)

/-- Lexicographic comparison of character code sequences; model of the JS
default string sort comparator. -/
def charListLe : List Char → List Char → Bool
  | [], _ => true
  | _ :: _, [] => false
  | a :: as, b :: bs =>
    if a.toNat < b.toNat then true
    else if b.toNat < a.toNat then false
    else charListLe as bs

/-- String comparison used by the model of Array.prototype.sort. -/
def strLe (a b : String) : Bool := charListLe a.toList b.toList

/-- Model of Array.prototype.sort on an array of strings (default
comparator: lexicographic on character codes). -/
def sortStrings (l : List String) : List String :=
  List.insertionSort (fun a b => strLe a b = true) l

/-- Embedding of scanPersons: collect person names of personal items in
first-occurrence order (the JS Set preserves insertion order), then sort. -/
def scanPersons (items : List BillItem) : List String :=
  let persons := items.foldl (fun acc item =>
    match item with
    | .personal _ _ p => if p ∈ acc then acc else acc ++ [p]
    | .shared _ _ => acc) []
  sortStrings persons

/-- Roster resolution, the let names = persons && persons.length > 0 ?
persons : scanPersons(items) step of calculateItems. -/
def resolveRoster (items : List BillItem) (persons : Option (List String)) : List String :=
  match persons with
  | some ps => if 0 < ps.length then ps else scanPersons items
  | none => scanPersons items

/-- Embedding of calculatePersonAmount.  The source accumulates
personalAmount and sharedAmount in one forEach pass, then divides the
shared amount by the roster size, adds the proportional tip and rounds. -/
def calculatePersonAmount (items : List BillItem) (tipPercentage : ℚ)
    (name : String) (persons : ℕ) : ℚ :=
  let acc := items.foldl (fun (acc : ℚ × ℚ) item =>
    match item with
    | .shared price _ => (acc.1, acc.2 + price)
    | .personal price _ p => if p = name then (acc.1 + price, acc.2) else acc)
    (0, 0)
  let personalAmount := acc.1
  let sharedAmount := acc.2
  let sharedPerPerson := if 0 < persons then sharedAmount / (persons : ℚ) else 0
  let personSubTotal := personalAmount + sharedPerPerson
  let personTip := personSubTotal * tipPercentage / 100
  roundTenth (personSubTotal + personTip)

/-- Embedding of calculateItems. -/
def calculateItems (items : List BillItem) (tipPercentage : ℚ)
    (persons : Option (List String)) : List PersonItem :=
  let names := resolveRoster items persons
  let personsCount := names.length
  names.map (fun name =>
    { name := name
      amount := calculatePersonAmount items tipPercentage name personsCount })

/-- Sum of the amounts of a list of person items, as the reduce in
adjustAmount computes it. -/
def sumAmounts (items : List PersonItem) : ℚ :=
  items.foldl (fun sum item => sum + item.amount) 0

/-- Embedding of adjustAmount.  The source mutates items[0] in place; the
embedding returns the updated list. -/
def adjustAmount (totalAmount : ℚ) (items : List PersonItem) : List PersonItem :=
  match items with
  | [] => items
  | first :: rest =>
    let currentTotal := sumAmounts (first :: rest)
    let difference := roundTenth (totalAmount - currentTotal)
    if 1/100 < |difference| then
      { name := first.name, amount := roundTenth (first.amount + difference) } :: rest
    else first :: rest

/-- Splitting a character list at every dash, the model of
String.prototype.split with separator "-"; acc holds the characters of
the current segment in reverse. -/
def splitAux : List Char → List Char → List (List Char)
  | [], acc => [acc.reverse]
  | c :: cs, acc =>
    if c = '-' then acc.reverse :: splitAux cs [] else splitAux cs (c :: acc)

/-- Numeric value of a list of decimal digit characters, most significant
first. -/
def digitsToNat (ds : List Char) : ℕ :=
  ds.foldl (fun n c => n * 10 + (c.toNat - 48)) 0

/-- Model of the template fragment parseInt(token) as displayed by JS
string interpolation: the longest digit prefix is parsed (dropping leading
zeros); with no digit prefix parseInt yields NaN. -/
def jsParseIntDisp (s : String) : String :=
  let ds := s.toList.takeWhile (fun c => c.isDigit)
  if ds.isEmpty then "NaN" else Nat.repr (digitsToNat ds)

/-- Embedding of formatDate: split on dashes, destructure into year,
month and day (a missing segment is modelled by the empty string), and
interpolate. -/
def formatDate (date : String) : String :=
  let parts := (splitAux date.toList []).map String.mk
  let year := parts.getD 0 ""
  let month := parts.getD 1 ""
  let day := parts.getD 2 ""
  year ++ "年" ++ jsParseIntDisp month ++ "月" ++ jsParseIntDisp day ++ "日"

/-- Embedding of splitBill, the single entry point of the core. -/
def splitBill (input : BillInput) : BillOutput :=
  let date := formatDate input.date
  let location := input.location
  let subTotal := calculateSubTotal input.items
  let tip := calculateTip subTotal input.tipPercentage
  let totalAmount := subTotal + tip
  let items := adjustAmount totalAmount
    (calculateItems input.items input.tipPercentage input.persons)
  { date := date, location := location, subTotal := subTotal, tip := tip
    totalAmount := totalAmount, items := items }

/-- Sum of the prices of the personal items attributed to a given person,
stated as the specification words it. -/
def specPersonalAmount (items : List BillItem) (name : String) : ℚ :=
  (items.map fun item =>
    match item with
    | .personal price _ p => if p = name then price else 0
    | .shared _ _ => 0).sum

/-- Sum of the prices of the shared items, stated as the specification
words it. -/
def specSharedAmount (items : List BillItem) : ℚ :=
  (items.map fun item =>
    match item with
    | .shared price _ => price
    | .personal _ _ _ => 0).sum

/-- Concrete input used to witness C2: one personal item for A, ten
percent tip, no override. -/
def c2In : BillInput :=
  { date := "2024-01-01", location := "L", tipPercentage := 10
    items := [BillItem.personal 10 "x" "A"], persons := none }

/-- Concrete input refuting C1 as stated: a single personal item of price
0.04 with zero tip.  The per-person amount rounds to 0, the total is 0.04,
and the difference rounds to 0, so no adjustment occurs and the gap is
0.04 > 0.01. -/
def c1CexIn : BillInput :=
  { date := "2024-01-01", location := "L", tipPercentage := 0
    items := [BillItem.personal (1/25) "x" "A"], persons := none }

/-- Concrete input witnessing the amended C1. -/
def c1In : BillInput :=
  { date := "2024-03-21", location := "Cafe", tipPercentage := 10
    items := [BillItem.shared 20 "Soup", BillItem.personal 50 "Steak" "Alice"]
    persons := none }

/-- Concrete input used by the C4 example: personal items for Bob and
Alice, no override. -/
def c4In : BillInput :=
  { date := "2024-03-21", location := "L", tipPercentage := 0
    items := [BillItem.personal 10 "Burger" "Bob", BillItem.personal 20 "Salad" "Alice"]
    persons := none }

/-- Concrete all-shared input used to witness C8. -/
def c8In : BillInput :=
  { date := "2024-03-21", location := "L", tipPercentage := 15
    items := [BillItem.shared 100 "Feast"], persons := none }

/-- Concrete input used to witness C10: override roster A, one personal
item attributed to B who is not on the roster. -/
def c10In : BillInput :=
  { date := "2024-03-21", location := "L", tipPercentage := 0
    items := [BillItem.personal 5 "y" "B"], persons := some ["A"] }

/-! ### Rounding lemmas -/

/-- Multiples of one tenth, the image of roundTenth. -/
def isTenth (x : ℚ) : Prop := ∃ n : ℤ, x = n / 10

theorem jsRound_intCast (n : ℤ) : jsRound (n : ℚ) = n := by
  unfold jsRound
  rw [Int.floor_int_add]
  norm_num

theorem roundTenth_isTenth (x : ℚ) : isTenth (roundTenth x) :=
  ⟨⌊x * 10 + 1/2⌋, rfl⟩

theorem isTenth_zero : isTenth 0 := ⟨0, by norm_num⟩

theorem isTenth_add {x y : ℚ} (hx : isTenth x) (hy : isTenth y) : isTenth (x + y) := by
  obtain ⟨m, rfl⟩ := hx
  obtain ⟨n, rfl⟩ := hy
  exact ⟨m + n, by push_cast; ring⟩

theorem roundTenth_eq_self {x : ℚ} (hx : isTenth x) : roundTenth x = x := by
  obtain ⟨n, rfl⟩ := hx
  unfold roundTenth
  have h : (n : ℚ) / 10 * 10 = (n : ℚ) := by ring
  rw [h, jsRound_intCast]

theorem roundTenth_sub_lt (x : ℚ) : x - roundTenth x < 1/20 := by
  unfold roundTenth jsRound
  have h := Int.lt_floor_add_one (x * 10 + 1/2)
  set n := ⌊x * 10 + 1/2⌋
  have : x * 10 - (n : ℚ) < 1/2 := by linarith
  linarith

theorem neg_le_sub_roundTenth (x : ℚ) : -(1/20) ≤ x - roundTenth x := by
  unfold roundTenth jsRound
  have h := Int.floor_le (x * 10 + 1/2)
  set n := ⌊x * 10 + 1/2⌋
  have : -(1/2) ≤ x * 10 - (n : ℚ) := by linarith
  linarith

theorem abs_sub_roundTenth_le (x : ℚ) : |x - roundTenth x| ≤ 1/20 := by
  rw [abs_le]
  constructor
  · exact neg_le_sub_roundTenth x
  · exact le_of_lt (roundTenth_sub_lt x)

theorem roundTenth_nonneg {x : ℚ} (hx : 0 ≤ x) : 0 ≤ roundTenth x := by
  unfold roundTenth jsRound
  have h : (0 : ℤ) ≤ ⌊x * 10 + 1/2⌋ := by
    rw [Int.floor_nonneg]
    linarith
  have h2 : (0 : ℚ) ≤ (⌊x * 10 + 1/2⌋ : ℚ) := by exact_mod_cast h
  linarith

theorem isTenth_eq_zero_of_small {x : ℚ} (hx : isTenth x) (h : |x| ≤ 1/100) : x = 0 := by
  obtain ⟨n, rfl⟩ := hx
  rcases eq_or_ne n 0 with h0 | h0
  · rw [h0]; norm_num
  · exfalso
    have h1 : (1 : ℤ) ≤ |n| := Int.one_le_abs h0
    have h2 : (1 : ℚ) ≤ |(n : ℚ)| := by
      rw [← Int.cast_abs]
      exact_mod_cast h1
    rw [abs_div] at h
    have h3 : |(10 : ℚ)| = 10 := by norm_num
    rw [h3] at h
    have h4 : |(n : ℚ)| ≤ 1/10 := by linarith
    linarith

/-! ### Fold characterizations -/

theorem calculateSubTotal_foldl (l : List BillItem) (a : ℚ) :
    l.foldl (fun total item => total + item.price) a = a + (l.map BillItem.price).sum := by
  induction l generalizing a with
  | nil => simp
  | cons x xs ih =>
    simp only [List.foldl_cons, List.map_cons, List.sum_cons, ih]
    ring

theorem calculateSubTotal_eq (items : List BillItem) :
    calculateSubTotal items = (items.map BillItem.price).sum := by
  unfold calculateSubTotal
  rw [calculateSubTotal_foldl]
  ring

theorem sumAmounts_foldl (l : List PersonItem) (a : ℚ) :
    l.foldl (fun sum item => sum + item.amount) a = a + (l.map PersonItem.amount).sum := by
  induction l generalizing a with
  | nil => simp
  | cons x xs ih =>
    simp only [List.foldl_cons, List.map_cons, List.sum_cons, ih]
    ring

theorem sumAmounts_eq (l : List PersonItem) :
    sumAmounts l = (l.map PersonItem.amount).sum := by
  unfold sumAmounts
  rw [sumAmounts_foldl]
  ring

theorem sumAmounts_cons (x : PersonItem) (l : List PersonItem) :
    sumAmounts (x :: l) = x.amount + sumAmounts l := by
  rw [sumAmounts_eq, sumAmounts_eq, List.map_cons, List.sum_cons]

theorem personAmount_foldl (l : List BillItem) (name : String) (a b : ℚ) :
    l.foldl (fun (acc : ℚ × ℚ) item =>
      match item with
      | .shared price _ => (acc.1, acc.2 + price)
      | .personal price _ p => if p = name then (acc.1 + price, acc.2) else acc)
      (a, b) =
    (a + specPersonalAmount l name, b + specSharedAmount l) := by
  induction l generalizing a b with
  | nil => simp [specPersonalAmount, specSharedAmount]
  | cons x xs ih =>
    cases x with
    | shared price iname =>
      simp only [List.foldl_cons, ih, specPersonalAmount, specSharedAmount,
        List.map_cons, List.sum_cons, Prod.mk.injEq]
      constructor <;> ring
    | personal price iname p =>
      by_cases hp : p = name
      · subst hp
        simp only [List.foldl_cons, ih, specPersonalAmount, specSharedAmount,
          List.map_cons, List.sum_cons, Prod.mk.injEq, eq_self_iff_true, if_true]
        constructor <;> ring
      · simp only [List.foldl_cons, if_neg hp, ih, specPersonalAmount,
          specSharedAmount, List.map_cons, List.sum_cons, Prod.mk.injEq]
        constructor <;> ring

theorem calculatePersonAmount_eq (items : List BillItem) (tipPercentage : ℚ)
    (name : String) (persons : ℕ) :
    calculatePersonAmount items tipPercentage name persons =
      roundTenth
        ((specPersonalAmount items name +
            (if 0 < persons then specSharedAmount items / (persons : ℚ) else 0)) +
          (specPersonalAmount items name +
            (if 0 < persons then specSharedAmount items / (persons : ℚ) else 0)) *
            tipPercentage / 100) := by
  unfold calculatePersonAmount
  rw [personAmount_foldl]
  simp

/-! ### String order bridge -/

theorem char_lt_iff_toNat (a b : Char) : a < b ↔ a.toNat < b.toNat := Iff.rfl

theorem char_eq_of_toNat_eq {a b : Char} (h : a.toNat = b.toNat) : a = b :=
  Char.eq_of_val_eq (UInt32.eq_of_toBitVec_eq (BitVec.eq_of_toNat_eq h))

theorem charListLe_iff : ∀ as bs : List Char, charListLe as bs = true ↔ ¬ bs < as
  | [], bs => by
    simp only [charListLe, true_iff]
    intro h
    cases h
  | a :: as, [] => by
    simp only [charListLe]
    exact iff_of_false (by simp) (not_not_intro List.Lex.nil)
  | a :: as, b :: bs => by
    by_cases h1 : a.toNat < b.toNat
    · simp only [charListLe, if_pos h1, true_iff]
      intro h
      cases h with
      | cons hlt => exact Nat.lt_irrefl _ h1
      | rel hba => exact Nat.lt_asymm h1 ((char_lt_iff_toNat b a).mp hba)
    · by_cases h2 : b.toNat < a.toNat
      · simp only [charListLe, if_neg h1, if_pos h2]
        exact iff_of_false (by simp)
          (not_not_intro (List.Lex.rel ((char_lt_iff_toNat b a).mpr h2)))
      · have hab : a = b :=
          char_eq_of_toNat_eq (Nat.le_antisymm (Nat.le_of_not_lt h2) (Nat.le_of_not_lt h1))
        subst hab
        have ih := charListLe_iff as bs
        simp only [charListLe, if_neg h1, if_neg h2]
        rw [ih]
        constructor
        · intro hnot h
          cases h with
          | cons hlt => exact hnot hlt
          | rel haa => exact Nat.lt_irrefl _ ((char_lt_iff_toNat a a).mp haa)
        · intro hnot hlt
          exact hnot (List.Lex.cons hlt)

theorem strLe_iff (a b : String) : strLe a b = true ↔ a ≤ b := by
  rw [String.le_iff_toList_le, ← not_lt]
  exact charListLe_iff a.toList b.toList

instance strLeTotal : IsTotal String (fun a b => strLe a b = true) := by
  constructor
  intro a b
  rw [strLe_iff, strLe_iff]
  exact le_total a b

instance strLeTrans : IsTrans String (fun a b => strLe a b = true) := by
  constructor
  intro a b c hab hbc
  rw [strLe_iff] at *
  exact le_trans hab hbc

theorem sortStrings_sorted (l : List String) : (sortStrings l).Sorted (· ≤ ·) := by
  have h := List.sorted_insertionSort (fun a b => strLe a b = true) l
  exact h.imp (fun hab => (strLe_iff _ _).mp hab)

theorem sortStrings_perm (l : List String) : List.Perm (sortStrings l) l :=
  List.perm_insertionSort _ l

/-! ### Person collection lemmas -/

theorem mem_collectPersons (items : List BillItem) :
    ∀ (acc : List String) (x : String),
      x ∈ items.foldl (fun acc item =>
          match item with
          | .personal _ _ p => if p ∈ acc then acc else acc ++ [p]
          | .shared _ _ => acc) acc ↔
        x ∈ acc ∨ ∃ price iname, BillItem.personal price iname x ∈ items := by
  induction items with
  | nil => simp
  | cons item rest ih =>
    intro acc x
    cases item with
    | shared price iname =>
      simp only [List.foldl_cons, ih, List.mem_cons]
      constructor
      · rintro (hx | ⟨p, n, hmem⟩)
        · exact Or.inl hx
        · exact Or.inr ⟨p, n, Or.inr hmem⟩
      · rintro (hx | ⟨p, n, hpn | hmem⟩)
        · exact Or.inl hx
        · cases hpn
        · exact Or.inr ⟨p, n, hmem⟩
    | personal price iname q =>
      simp only [List.foldl_cons, ih, List.mem_cons]
      have hacc : ∀ b : List String, (x ∈ (if q ∈ acc then acc else acc ++ [q])) ↔
          (x ∈ acc ∨ x = q) := by
        intro b
        by_cases hq : q ∈ acc
        · rw [if_pos hq]
          constructor
          · exact Or.inl
          · rintro (hx | rfl)
            · exact hx
            · exact hq
        · rw [if_neg hq]
          simp [List.mem_append]
      rw [hacc []]
      constructor
      · rintro ((hx | rfl) | ⟨p, n, hmem⟩)
        · exact Or.inl hx
        · exact Or.inr ⟨price, iname, Or.inl rfl⟩
        · exact Or.inr ⟨p, n, Or.inr hmem⟩
      · rintro (hx | ⟨p, n, hpn | hmem⟩)
        · exact Or.inl (Or.inl hx)
        · cases hpn
          exact Or.inl (Or.inr rfl)
        · exact Or.inr ⟨p, n, hmem⟩

theorem nodup_collectPersons (items : List BillItem) :
    ∀ acc : List String, acc.Nodup →
      (items.foldl (fun acc item =>
          match item with
          | .personal _ _ p => if p ∈ acc then acc else acc ++ [p]
          | .shared _ _ => acc) acc).Nodup := by
  induction items with
  | nil => exact fun acc h => h
  | cons item rest ih =>
    intro acc hacc
    cases item with
    | shared price iname => exact ih acc hacc
    | personal price iname q =>
      simp only [List.foldl_cons]
      by_cases hq : q ∈ acc
      · rw [if_pos hq]
        exact ih acc hacc
      · rw [if_neg hq]
        refine ih _ ?_
        simp [List.nodup_append, hacc, hq]

theorem scanPersons_sorted (items : List BillItem) :
    (scanPersons items).Sorted (· ≤ ·) :=
  sortStrings_sorted _

theorem scanPersons_nodup (items : List BillItem) : (scanPersons items).Nodup := by
  unfold scanPersons
  exact ((sortStrings_perm _).nodup_iff).mpr (nodup_collectPersons items [] List.nodup_nil)

theorem mem_scanPersons (items : List BillItem) (x : String) :
    x ∈ scanPersons items ↔ ∃ price iname, BillItem.personal price iname x ∈ items := by
  unfold scanPersons
  rw [(sortStrings_perm _).mem_iff, mem_collectPersons]
  simp

/-! ### Claim theorems -/

/-- C3: calculateTip returns round_nearest_tenth (subTotal * tipPercentage / 100),
where the rounding multiplies by 10, rounds half up (toward positive infinity),
and divides by 10; in particular calculateTip 100 15 = 15.0 and
calculateTip 33.33 10 = 3.3. -/
theorem c3_calculateTip_rounding :
    (∀ subTotal tipPercentage : ℚ,
      calculateTip subTotal tipPercentage =
        (⌊subTotal * tipPercentage / 100 * 10 + 1/2⌋ : ℚ) / 10) ∧
    calculateTip 100 15 = 15 ∧ calculateTip (33.33 : ℚ) 10 = 33/10 := by
  refine ⟨fun s t => rfl, ?_, ?_⟩ <;> with_unfolding_all decide

/-- C5: for every input, totalAmount is the unrounded sum of the exact
subtotal and the already-rounded tip, with no further rounding. -/
theorem c5_totalAmount_unrounded_sum :
    ∀ input : BillInput,
      (splitBill input).totalAmount = (splitBill input).subTotal + (splitBill input).tip ∧
      (splitBill input).subTotal = calculateSubTotal input.items ∧
      (splitBill input).tip =
        calculateTip (calculateSubTotal input.items) input.tipPercentage :=
  fun _ => ⟨rfl, rfl, rfl⟩

/-- C6: for every item list, shared and personal alike, the subtotal is the
exact unrounded sum of the item prices, and the empty list yields 0. -/
theorem c6_subTotal_exact_sum :
    (∀ items : List BillItem, calculateSubTotal items = (items.map BillItem.price).sum) ∧
    calculateSubTotal [] = 0 ∧
    ∀ input : BillInput, (splitBill input).subTotal = (input.items.map BillItem.price).sum :=
  ⟨calculateSubTotal_eq, rfl, fun input => calculateSubTotal_eq input.items⟩

/-- C2: every entry of the pre-reconciliation output carries the amount
round_nearest_tenth (personSubTotal + personSubTotal * tipPercentage / 100),
where personSubTotal is the sum of prices of the personal items of that
entry's person plus the sum of prices of the shared items divided by the
roster size (not by the count of people who have items). -/
theorem c2_person_amount_formula :
    ∀ (input : BillInput) (item : PersonItem),
      item ∈ calculateItems input.items input.tipPercentage input.persons →
      0 < (resolveRoster input.items input.persons).length →
      item.amount =
        roundTenth
          ((specPersonalAmount input.items item.name +
              specSharedAmount input.items /
                ((resolveRoster input.items input.persons).length : ℚ)) +
            (specPersonalAmount input.items item.name +
              specSharedAmount input.items /
                ((resolveRoster input.items input.persons).length : ℚ)) *
              input.tipPercentage / 100) := by
  intro input item hmem hn
  unfold calculateItems at hmem
  simp only [List.mem_map] at hmem
  obtain ⟨name, hname, rfl⟩ := hmem
  simp only
  rw [calculatePersonAmount_eq, if_pos hn]

theorem c2_witness :
    ({ name := "A", amount := 11 } : PersonItem) ∈
        calculateItems c2In.items c2In.tipPercentage c2In.persons ∧
      0 < (resolveRoster c2In.items c2In.persons).length ∧
      ({ name := "A", amount := 11 } : PersonItem).amount =
        roundTenth
          ((specPersonalAmount c2In.items "A" +
              specSharedAmount c2In.items /
                ((resolveRoster c2In.items c2In.persons).length : ℚ)) +
            (specPersonalAmount c2In.items "A" +
              specSharedAmount c2In.items /
                ((resolveRoster c2In.items c2In.persons).length : ℚ)) *
              c2In.tipPercentage / 100) :=
  ⟨by with_unfolding_all decide, by with_unfolding_all decide,
    c2_person_amount_formula c2In { name := "A", amount := 11 }
      (by with_unfolding_all decide) (by with_unfolding_all decide)⟩

/-! ### Reconciliation lemmas -/

theorem adjustAmount_cons (T : ℚ) (first : PersonItem) (rest : List PersonItem) :
    adjustAmount T (first :: rest) =
      if 1/100 < |roundTenth (T - sumAmounts (first :: rest))| then
        { name := first.name,
          amount :=
            roundTenth (first.amount + roundTenth (T - sumAmounts (first :: rest))) } :: rest
      else first :: rest := rfl

theorem adjustAmount_tail (T : ℚ) (first : PersonItem) (rest : List PersonItem) :
    (adjustAmount T (first :: rest)).tail = rest := by
  rw [adjustAmount_cons]
  by_cases hc : 1/100 < |roundTenth (T - sumAmounts (first :: rest))|
  · rw [if_pos hc]
    rfl
  · rw [if_neg hc]
    rfl

theorem calculateItems_isTenth (items : List BillItem) (tp : ℚ)
    (ps : Option (List String)) :
    ∀ x ∈ calculateItems items tp ps, isTenth x.amount := by
  intro x hx
  unfold calculateItems at hx
  simp only [List.mem_map] at hx
  obtain ⟨name, _, rfl⟩ := hx
  simp only
  rw [calculatePersonAmount_eq]
  exact roundTenth_isTenth _

theorem sumAmounts_isTenth (l : List PersonItem) (h : ∀ x ∈ l, isTenth x.amount) :
    isTenth (sumAmounts l) := by
  induction l with
  | nil => exact isTenth_zero
  | cons x xs ih =>
    rw [sumAmounts_cons]
    exact isTenth_add (h x (List.mem_cons_self _ _))
      (ih fun y hy => h y (List.mem_cons_of_mem _ hy))

theorem adjustAmount_bound (T : ℚ) (first : PersonItem) (rest : List PersonItem)
    (ht : ∀ x ∈ first :: rest, isTenth x.amount) :
    |sumAmounts (adjustAmount T (first :: rest)) - T| ≤ 1/20 := by
  have hS : isTenth (sumAmounts (first :: rest)) := sumAmounts_isTenth _ ht
  set S := sumAmounts (first :: rest) with hSdef
  have hd : isTenth (roundTenth (T - S)) := roundTenth_isTenth _
  have hub := roundTenth_sub_lt (T - S)
  have hlb := neg_le_sub_roundTenth (T - S)
  rw [adjustAmount_cons, ← hSdef]
  by_cases hc : 1/100 < |roundTenth (T - S)|
  · rw [if_pos hc, sumAmounts_cons]
    have hfirst : isTenth first.amount := ht first (List.mem_cons_self _ _)
    have heq : roundTenth (first.amount + roundTenth (T - S)) =
        first.amount + roundTenth (T - S) :=
      roundTenth_eq_self (isTenth_add hfirst hd)
    simp only [heq]
    have hSc : S = first.amount + sumAmounts rest := sumAmounts_cons _ _
    rw [abs_le]
    constructor <;> linarith
  · rw [if_neg hc, ← hSdef]
    have h0 : roundTenth (T - S) = 0 := isTenth_eq_zero_of_small hd (le_of_not_lt hc)
    rw [h0] at hub hlb
    rw [abs_le]
    constructor <;> linarith

theorem c1_counterexample :
    resolveRoster c1CexIn.items c1CexIn.persons ≠ [] ∧
      ¬ (|sumAmounts (splitBill c1CexIn).items - (splitBill c1CexIn).totalAmount| ≤ 1/100) := by
  constructor <;> with_unfolding_all decide

/-- C1 (amended): for every input whose resolved roster is non-empty, after
the reconciliation step the sum of the per-person amounts equals
totalAmount to within 0.05 (the claimed 0.01 fails, see the
counterexample), the correction being applied via the first roster entry
only: every entry after the first is the pre-reconciliation entry,
unchanged. -/
theorem c1_reconciliation_bound :
    ∀ input : BillInput,
      resolveRoster input.items input.persons ≠ [] →
      |sumAmounts (splitBill input).items - (splitBill input).totalAmount| ≤ 1/20 ∧
        ((splitBill input).items).tail =
          (calculateItems input.items input.tipPercentage input.persons).tail := by
  intro input hne
  have hpre : calculateItems input.items input.tipPercentage input.persons ≠ [] := by
    unfold calculateItems
    simp only [ne_eq, List.map_eq_nil_iff]
    exact hne
  obtain ⟨first, rest, hfr⟩ := List.exists_cons_of_ne_nil hpre
  have hitems : (splitBill input).items =
      adjustAmount ((splitBill input).totalAmount)
        (calculateItems input.items input.tipPercentage input.persons) := rfl
  rw [hitems, hfr]
  constructor
  · exact adjustAmount_bound _ first rest
      (hfr ▸ calculateItems_isTenth input.items input.tipPercentage input.persons)
  · rw [adjustAmount_tail]
    rfl

theorem c1_witness :
    resolveRoster c1In.items c1In.persons ≠ [] ∧
      (|sumAmounts (splitBill c1In).items - (splitBill c1In).totalAmount| ≤ 1/20 ∧
        ((splitBill c1In).items).tail =
          (calculateItems c1In.items c1In.tipPercentage c1In.persons).tail) :=
  ⟨by with_unfolding_all decide,
    c1_reconciliation_bound c1In (by with_unfolding_all decide)⟩

/-- Roster resolution with a non-empty override returns the override
unchanged. -/
theorem resolveRoster_override (items : List BillItem) (ps : List String) (hps : ps ≠ []) :
    resolveRoster items (some ps) = ps := by
  show (if 0 < ps.length then ps else scanPersons items) = ps
  rw [if_pos (List.length_pos.mpr hps)]

/-- C4: with a non-empty persons override the roster is exactly the
override as given (order preserved, no deduplication, no sorting);
otherwise — the override absent or supplied but empty — it is the distinct
set of person names of the personal items sorted lexicographically
ascending; in particular a no-override input with personal items for Bob
and Alice yields output items ordered Alice, Bob. -/
theorem c4_roster_resolution :
    (∀ (items : List BillItem) (tp : ℚ) (ps : List String), ps ≠ [] →
      (calculateItems items tp (some ps)).map PersonItem.name = ps) ∧
    (∀ (items : List BillItem) (tp : ℚ),
      (calculateItems items tp none).map PersonItem.name = scanPersons items) ∧
    (∀ (items : List BillItem) (tp : ℚ),
      (calculateItems items tp (some [])).map PersonItem.name = scanPersons items) ∧
    (∀ items : List BillItem,
      (scanPersons items).Sorted (· ≤ ·) ∧ (scanPersons items).Nodup ∧
        ∀ x : String, (x ∈ scanPersons items ↔
          ∃ price iname, BillItem.personal price iname x ∈ items)) ∧
    ((splitBill c4In).items).map PersonItem.name = ["Alice", "Bob"] := by
  refine ⟨?_, ?_, ?_, ?_, ?_⟩
  · intro items tp ps hps
    unfold calculateItems
    rw [resolveRoster_override items ps hps]
    simp [List.map_map, Function.comp_def]
  · intro items tp
    unfold calculateItems resolveRoster
    simp [List.map_map, Function.comp_def]
  · intro items tp
    unfold calculateItems resolveRoster
    simp [List.map_map, Function.comp_def]
  · intro items
    exact ⟨scanPersons_sorted items, scanPersons_nodup items,
      fun x => mem_scanPersons items x⟩
  · with_unfolding_all decide

theorem c4_witness :
    (["B", "A"] : List String) ≠ [] ∧
      (calculateItems [] 0 (some ["B", "A"])).map PersonItem.name = ["B", "A"] :=
  ⟨by with_unfolding_all decide,
    c4_roster_resolution.1 [] 0 ["B", "A"] (by with_unfolding_all decide)⟩

/-- C7: the reconciliation step modifies at most one record.  On an empty
list it is a no-op; on first :: rest it returns a list whose tail is rest
unchanged and whose head keeps the first entry's name, the head amount
being either unchanged or the re-rounded sum of the old amount and the
whole rounded difference; the date, location, subTotal, tip and
totalAmount fields of the output are the values computed before the
adjustment, untouched by it. -/
theorem c7_reconciliation_frame :
    (∀ T : ℚ, adjustAmount T [] = []) ∧
    (∀ (T : ℚ) (first : PersonItem) (rest : List PersonItem),
      (adjustAmount T (first :: rest)).tail = rest ∧
      ∃ a : ℚ,
        adjustAmount T (first :: rest) = { name := first.name, amount := a } :: rest ∧
          (a = first.amount ∨
            a = roundTenth (first.amount + roundTenth (T - sumAmounts (first :: rest))))) ∧
    (∀ input : BillInput,
      (splitBill input).date = formatDate input.date ∧
      (splitBill input).location = input.location ∧
      (splitBill input).subTotal = calculateSubTotal input.items ∧
      (splitBill input).tip =
        calculateTip (calculateSubTotal input.items) input.tipPercentage ∧
      (splitBill input).totalAmount =
        calculateSubTotal input.items +
          calculateTip (calculateSubTotal input.items) input.tipPercentage) := by
  refine ⟨fun T => rfl, ?_, fun input => ⟨rfl, rfl, rfl, rfl, rfl⟩⟩
  intro T first rest
  rw [adjustAmount_cons]
  by_cases hc : 1/100 < |roundTenth (T - sumAmounts (first :: rest))|
  · rw [if_pos hc]
    exact ⟨rfl, ⟨_, rfl, Or.inr rfl⟩⟩
  · rw [if_neg hc]
    exact ⟨rfl, ⟨first.amount, rfl, Or.inl rfl⟩⟩

/-- Scanning an all-shared item list yields no participants. -/
theorem scanPersons_all_shared (items : List BillItem)
    (hall : ∀ i ∈ items, ∃ price iname, i = BillItem.shared price iname) :
    scanPersons items = [] := by
  rw [List.eq_nil_iff_forall_not_mem]
  intro x hx
  rw [mem_scanPersons] at hx
  obtain ⟨price, iname, hmem⟩ := hx
  obtain ⟨p2, n2, heq⟩ := hall _ hmem
  cases heq

/-- C8: an input whose items are all shared with no non-empty persons
override succeeds and yields an empty output item list, while — for
non-negative prices, a nonzero subtotal and a non-negative tip percentage
— totalAmount stays positive: the shared cost is allocated to no one. -/
theorem c8_all_shared_empty_roster :
    ∀ input : BillInput,
      (∀ i ∈ input.items, ∃ price iname, i = BillItem.shared price iname) →
      (input.persons = none ∨ input.persons = some []) →
      (splitBill input).items = [] ∧
        ((∀ i ∈ input.items, 0 ≤ i.price) → calculateSubTotal input.items ≠ 0 →
          0 ≤ input.tipPercentage → 0 < (splitBill input).totalAmount) := by
  intro input hall hover
  have hscan : scanPersons input.items = [] := scanPersons_all_shared input.items hall
  have hroster : resolveRoster input.items input.persons = [] := by
    rcases hover with h | h <;> rw [h]
    · show scanPersons input.items = []
      exact hscan
    · show (if 0 < ([] : List String).length then ([] : List String)
        else scanPersons input.items) = []
      rw [if_neg (by simp)]
      exact hscan
  have hcalc : calculateItems input.items input.tipPercentage input.persons = [] := by
    unfold calculateItems
    rw [hroster]
    rfl
  constructor
  · show adjustAmount ((splitBill input).totalAmount)
      (calculateItems input.items input.tipPercentage input.persons) = []
    rw [hcalc]
    rfl
  · intro hnn hnz htp
    have hsub : 0 ≤ calculateSubTotal input.items := by
      rw [calculateSubTotal_eq]
      apply List.sum_nonneg
      intro x hx
      simp only [List.mem_map] at hx
      obtain ⟨i, hi, rfl⟩ := hx
      exact hnn i hi
    have hpos : 0 < calculateSubTotal input.items := lt_of_le_of_ne hsub (Ne.symm hnz)
    have htip : 0 ≤ calculateTip (calculateSubTotal input.items) input.tipPercentage := by
      unfold calculateTip
      exact roundTenth_nonneg
        (div_nonneg (mul_nonneg hsub htp) (by norm_num))
    show 0 < calculateSubTotal input.items +
      calculateTip (calculateSubTotal input.items) input.tipPercentage
    linarith

theorem c8_witness :
    (splitBill c8In).items = [] ∧ 0 < (splitBill c8In).totalAmount := by
  have h := c8_all_shared_empty_roster c8In
    (by
      intro i hi
      have hi2 : i ∈ [BillItem.shared 100 "Feast"] := hi
      rw [List.mem_singleton] at hi2
      exact ⟨100, "Feast", hi2⟩)
    (Or.inl rfl)
  exact ⟨h.1, h.2 (by with_unfolding_all decide) (by with_unfolding_all decide)
    (by with_unfolding_all decide)⟩

/-! ### Date formatting lemmas -/

theorem splitAux_no_sep (l : List Char) (h : ∀ c ∈ l, c ≠ '-') :
    ∀ acc : List Char, splitAux l acc = [acc.reverse ++ l] := by
  induction l with
  | nil => intro acc; simp [splitAux]
  | cons c cs ih =>
    intro acc
    have hc : c ≠ '-' := h c (List.mem_cons_self _ _)
    simp only [splitAux, if_neg hc]
    rw [ih (fun x hx => h x (List.mem_cons_of_mem _ hx))]
    simp

theorem splitAux_sep (l : List Char) (h : ∀ c ∈ l, c ≠ '-') (rest : List Char) :
    ∀ acc : List Char,
      splitAux (l ++ '-' :: rest) acc = (acc.reverse ++ l) :: splitAux rest [] := by
  induction l with
  | nil => intro acc; simp [splitAux]
  | cons c cs ih =>
    intro acc
    have hc : c ≠ '-' := h c (List.mem_cons_self _ _)
    simp only [List.cons_append, splitAux, if_neg hc, List.append_eq]
    rw [ih (fun x hx => h x (List.mem_cons_of_mem _ hx))]
    simp

theorem digit_ne_dash {c : Char} (h : c.isDigit = true) : c ≠ '-' := by
  intro heq
  rw [heq] at h
  exact absurd h (by decide)

theorem jsParseIntDisp_digits (m : List Char) (hm : ∀ c ∈ m, c.isDigit = true)
    (hne : m ≠ []) : jsParseIntDisp (String.mk m) = Nat.repr (digitsToNat m) := by
  unfold jsParseIntDisp
  have ht : (String.mk m).toList.takeWhile (fun c => c.isDigit) = m :=
    List.takeWhile_eq_self_iff.mpr hm
  rw [ht, if_neg (by simpa using hne)]

/-- C9: for a date made of three dash-separated nonempty digit segments,
formatDate produces year, month, day joined by the localized markers, the
month and day displayed with leading zeros stripped and no calendar
validation: 2024-03-21 becomes 2024年3月21日, 2024-03-05 becomes
2024年3月5日, and 2024-13-40 passes through as 2024年13月40日. -/
theorem c9_formatDate :
    (∀ y m d : List Char,
      (∀ c ∈ y, c.isDigit = true) → (∀ c ∈ m, c.isDigit = true) →
      (∀ c ∈ d, c.isDigit = true) → m ≠ [] → d ≠ [] →
      formatDate (String.mk (y ++ '-' :: (m ++ '-' :: d))) =
        String.mk y ++ "年" ++ Nat.repr (digitsToNat m) ++ "月" ++
          Nat.repr (digitsToNat d) ++ "日") ∧
    formatDate "2024-03-21" = "2024年3月21日" ∧
    formatDate "2024-03-05" = "2024年3月5日" ∧
    formatDate "2024-13-40" = "2024年13月40日" := by
  refine ⟨?_, ?_, ?_, ?_⟩
  · intro y m d hy hm hd hmne hdne
    unfold formatDate
    have h1 : (String.mk (y ++ '-' :: (m ++ '-' :: d))).toList =
        y ++ '-' :: (m ++ '-' :: d) := rfl
    rw [h1, splitAux_sep y (fun c hc => digit_ne_dash (hy c hc)) _ [],
      splitAux_sep m (fun c hc => digit_ne_dash (hm c hc)) _ [],
      splitAux_no_sep d (fun c hc => digit_ne_dash (hd c hc)) []]
    simp only [List.reverse_nil, List.nil_append, List.map_cons, List.map_nil,
      List.getD_cons_zero, List.getD_cons_succ]
    rw [jsParseIntDisp_digits m hm hmne, jsParseIntDisp_digits d hd hdne]
  · with_unfolding_all decide
  · with_unfolding_all decide
  · with_unfolding_all decide

theorem c9_witness :
    formatDate (String.mk (['2'] ++ '-' :: (['0', '3'] ++ '-' :: ['5']))) =
      String.mk ['2'] ++ "年" ++ Nat.repr (digitsToNat ['0', '3']) ++ "月" ++
        Nat.repr (digitsToNat ['5']) ++ "日" :=
  c9_formatDate.1 ['2'] ['0', '3'] ['5'] (by decide) (by decide) (by decide)
    (by decide) (by decide)

/-! ### Unmatched personal items -/

theorem calculateSubTotal_middle (l1 l2 : List BillItem) (u : BillItem) :
    calculateSubTotal (l1 ++ u :: l2) = u.price + calculateSubTotal (l1 ++ l2) := by
  rw [calculateSubTotal_eq, calculateSubTotal_eq]
  simp only [List.map_append, List.map_cons, List.sum_append, List.sum_cons]
  ring

theorem specPersonalAmount_middle (l1 l2 : List BillItem) (price : ℚ)
    (iname pname name : String) (hne : pname ≠ name) :
    specPersonalAmount (l1 ++ BillItem.personal price iname pname :: l2) name =
      specPersonalAmount (l1 ++ l2) name := by
  unfold specPersonalAmount
  simp only [List.map_append, List.map_cons, List.sum_append, List.sum_cons, if_neg hne]
  ring

theorem specSharedAmount_middle (l1 l2 : List BillItem) (price : ℚ)
    (iname pname : String) :
    specSharedAmount (l1 ++ BillItem.personal price iname pname :: l2) =
      specSharedAmount (l1 ++ l2) := by
  unfold specSharedAmount
  simp only [List.map_append, List.map_cons, List.sum_append, List.sum_cons]
  ring

theorem calculatePersonAmount_ignore (l1 l2 : List BillItem) (price : ℚ)
    (iname pname : String) (tp : ℚ) (name : String) (n : ℕ) (hne : pname ≠ name) :
    calculatePersonAmount (l1 ++ BillItem.personal price iname pname :: l2) tp name n =
      calculatePersonAmount (l1 ++ l2) tp name n := by
  rw [calculatePersonAmount_eq, calculatePersonAmount_eq,
    specPersonalAmount_middle l1 l2 price iname pname name hne,
    specSharedAmount_middle l1 l2 price iname pname]

theorem calculateItems_ignore (l1 l2 : List BillItem) (price : ℚ)
    (iname pname : String) (tp : ℚ) (ps : List String) (hps : ps ≠ [])
    (hnot : pname ∉ ps) :
    calculateItems (l1 ++ BillItem.personal price iname pname :: l2) tp (some ps) =
      calculateItems (l1 ++ l2) tp (some ps) := by
  unfold calculateItems
  rw [resolveRoster_override _ ps hps, resolveRoster_override _ ps hps]
  apply List.map_congr_left
  intro name hname
  have hne : pname ≠ name := fun h => hnot (h ▸ hname)
  rw [calculatePersonAmount_ignore l1 l2 price iname pname tp name ps.length hne]

/-- C10: with a non-empty persons override, a personal item whose person
appears nowhere on the roster has its price included in subTotal (hence in
totalAmount) yet contributes to no roster entry's pre-reconciliation
amount; the final items are the reconciliation of the unchanged
pre-reconciliation amounts against the enlarged total, and all entries
after the first are unchanged by it, so the first-listed participant alone
absorbs the unmatched cost. -/
theorem c10_unmatched_personal :
    ∀ (input : BillInput) (ps : List String) (l1 l2 : List BillItem)
      (price : ℚ) (iname pname : String),
      input.persons = some ps → ps ≠ [] →
      input.items = l1 ++ BillItem.personal price iname pname :: l2 →
      pname ∉ ps →
      (splitBill input).subTotal = price + calculateSubTotal (l1 ++ l2) ∧
        calculateItems input.items input.tipPercentage input.persons =
          calculateItems (l1 ++ l2) input.tipPercentage (some ps) ∧
        (splitBill input).items =
          adjustAmount ((splitBill input).totalAmount)
            (calculateItems (l1 ++ l2) input.tipPercentage (some ps)) ∧
        ((splitBill input).items).tail =
          (calculateItems (l1 ++ l2) input.tipPercentage (some ps)).tail := by
  intro input ps l1 l2 price iname pname hpers hps hitems hnot
  have hci : calculateItems input.items input.tipPercentage input.persons =
      calculateItems (l1 ++ l2) input.tipPercentage (some ps) := by
    rw [hitems, hpers]
    exact calculateItems_ignore l1 l2 price iname pname input.tipPercentage ps hps hnot
  have hadj : (splitBill input).items =
      adjustAmount ((splitBill input).totalAmount)
        (calculateItems (l1 ++ l2) input.tipPercentage (some ps)) := by
    show adjustAmount ((splitBill input).totalAmount)
        (calculateItems input.items input.tipPercentage input.persons) =
      adjustAmount ((splitBill input).totalAmount)
        (calculateItems (l1 ++ l2) input.tipPercentage (some ps))
    rw [hci]
  refine ⟨?_, hci, hadj, ?_⟩
  · show calculateSubTotal input.items = price + calculateSubTotal (l1 ++ l2)
    rw [hitems]
    exact calculateSubTotal_middle l1 l2 _
  · have hpre : calculateItems (l1 ++ l2) input.tipPercentage (some ps) ≠ [] := by
      unfold calculateItems
      rw [resolveRoster_override _ ps hps]
      simp only [ne_eq, List.map_eq_nil_iff]
      exact hps
    obtain ⟨first, rest, hfr⟩ := List.exists_cons_of_ne_nil hpre
    rw [hadj, hfr, adjustAmount_tail]
    rfl

theorem c10_witness :
    (splitBill c10In).subTotal = 5 + calculateSubTotal ([] ++ []) ∧
      calculateItems c10In.items c10In.tipPercentage c10In.persons =
        calculateItems ([] ++ []) c10In.tipPercentage (some ["A"]) ∧
      (splitBill c10In).items =
        adjustAmount ((splitBill c10In).totalAmount)
          (calculateItems ([] ++ []) c10In.tipPercentage (some ["A"])) ∧
      ((splitBill c10In).items).tail =
        (calculateItems ([] ++ []) c10In.tipPercentage (some ["A"])).tail :=
  c10_unmatched_personal c10In ["A"] [] [] 5 "y" "B" rfl
    (by with_unfolding_all decide) rfl (by with_unfolding_all decide)
